import Mathlib

/-!
Verification of the pattern-learning pipeline
(`backend/ml/feature_engineering.py`, `backend/ml/pattern_learning.py`).

Numeric values are modelled by `ℚ`; a float `NaN` (an undefined feature
value) is modelled by `none : Option ℚ`.  The transcendental helpers that
the code applies to already-computed rational quantities (`np.log`, the
square root inside a rolling standard deviation) are passed in as abstract
functions `ℚ → ℚ`: every property proved here is independent of their
values, and witnesses instantiate them with concrete functions.
-/

/-! ## Pattern mapping (`pattern_learning.py`, `map_clusters_to_patterns`) -/

/-- `idx = {name: i for i, name in enumerate(feature_cols)}` followed by
`idx.get(name, 0)`: the index of the last occurrence of `name` in
`feature_cols`, defaulting to `0` when the name is absent. -/
def idxGet (cols : List String) (name : String) : ℕ :=
  cols.enum.foldl (fun acc p => if p.2 = name then p.1 else acc) 0

/-- `c[j]` on a centroid vector.  The Python code never indexes out of
bounds on the pipeline's real schema; the default `0` is only ever used in
theorems whose hypotheses keep the index in range. -/
def cAt (c : List ℚ) (j : ℕ) : ℚ :=
  c.getD j 0

/-- The nine per-pattern scores computed from a centroid `c` against the
feature schema `cols` (source lines 215–239).  Each named lookup is
`idx.get(name, 0)`, i.e. `idxGet`. -/
def patternScores (c : List ℚ) (cols : List String) : List (String × ℚ) :=
  [("P1", -|cAt c (idxGet cols ("volatility_10d"))| - |cAt c (idxGet cols ("trend_slope_10d"))|),
   ("P2", cAt c (idxGet cols ("volatility_10d")) - |cAt c (idxGet cols ("trend_slope_10d"))|),
   ("P3", cAt c (idxGet cols ("trend_slope_10d")) + cAt c (idxGet cols ("momentum_10d"))),
   ("P4", -cAt c (idxGet cols ("trend_slope_10d")) - cAt c (idxGet cols ("momentum_10d"))),
   ("P5", cAt c (idxGet cols ("volatility_10d")) + |cAt c (idxGet cols ("momentum_5d"))|),
   ("P6", -cAt c (idxGet cols ("volatility_10d")) - cAt c (idxGet cols ("range_compression_10d"))),
   ("P7", cAt c (idxGet cols ("volume_ratio_10d")) + |cAt c (idxGet cols ("drawdown_20d"))|),
   ("P8", -|cAt c (idxGet cols ("trend_slope_10d"))| + cAt c (idxGet cols ("volatility_10d")) * (1/2)),
   ("P9", -cAt c (idxGet cols ("volume_ratio_10d")))]

/-- Modelled from the spec: the nine scoring formulas of spec §4.6, written
directly over the named centroid components (`vol10` = volatility_10d,
`slope10` = trend_slope_10d, `mom10` = momentum_10d, `mom5` = momentum_5d,
`rc10` = range_compression_10d, `vr10` = volume_ratio_10d,
`dd20` = drawdown_20d).  This is the refinement target that
`patternScores` is compared against on the pipeline's actual schema. -/
def specPatternScores (vol10 slope10 mom10 mom5 rc10 vr10 dd20 : ℚ) :
    List (String × ℚ) :=
  [("P1", -|vol10| - |slope10|),
   ("P2", vol10 - |slope10|),
   ("P3", slope10 + mom10),
   ("P4", -slope10 - mom10),
   ("P5", vol10 + |mom5|),
   ("P6", -vol10 - rc10),
   ("P7", vr10 + |dd20|),
   ("P8", -|slope10| + vol10 * (1/2)),
   ("P9", -vr10)]

/-- The fixed catalog of pattern ids, in the order the scores dict is
populated. -/
def patternIdsL : List String :=
  ["P1", "P2", "P3", "P4", "P5", "P6", "P7", "P8", "P9"]

/-- The feature schema produced by `prepare_features`: the feature columns
of `extract_features` (insertion order, source lines 92–112) minus the
metadata columns `date`/`stock`. -/
def featureCols : List String :=
  ["volatility_5d", "volatility_10d", "volatility_20d",
   "trend_slope_10d", "trend_slope_20d", "drawdown_20d",
   "volume_ratio_10d", "volume_ratio_20d", "range_compression_10d",
   "momentum_5d", "momentum_10d"]

/-- One step of a stable insertion sort by score descending (ties keep the
original order), mirroring Python's stable `sorted(..., reverse=True)`. -/
def insertDesc (p : String × ℚ) : List (String × ℚ) → List (String × ℚ)
  | [] => [p]
  | q :: qs => if q.2 > p.2 then q :: insertDesc p qs else p :: q :: qs

/-- `sorted(scores.items(), key=lambda x: x[1], reverse=True)`: stable
sort by score descending. -/
def sortDesc (l : List (String × ℚ)) : List (String × ℚ) :=
  l.foldr insertDesc []

/-- The inner loop of `map_clusters_to_patterns`: walk the sorted scores
and take the first pattern not yet in `used_patterns`. -/
def pickBest (scores : List (String × ℚ)) (used : List String) :
    Option (String × ℚ) :=
  ((sortDesc scores).filter (fun z => decide (z.1 ∉ used))).head?

/-- The main loop of `map_clusters_to_patterns`, processing the remaining
centroids `cs` whose first element has cluster id `i0`, with `used` the
set of already-claimed pattern ids. -/
def mapClustersFrom (cols : List String) :
    List (List ℚ) → ℕ → List String → List (ℕ × String)
  | [], _, _ => []
  | c :: rest, i0, used =>
    match pickBest (patternScores c cols) used with
    | some pv => (i0, pv.1) :: mapClustersFrom cols rest (i0 + 1) (pv.1 :: used)
    | none => mapClustersFrom cols rest (i0 + 1) used

/-- `map_clusters_to_patterns` (source lines 194–249): the association
list `cluster_id → pattern_id`, keys in insertion (= ascending cluster id)
order, exactly the Python dict `pattern_mapping`. -/
def map_clusters_to_patterns (centroids : List (List ℚ)) (cols : List String) :
    List (ℕ × String) :=
  mapClustersFrom cols centroids 0 []

/-! ## Rolling-window features (`feature_engineering.py`) -/

/-- Mean of a list (`0` on the empty list, matching `0 / 0 = 0` in `ℚ`). -/
def colMean (l : List ℚ) : ℚ :=
  l.sum / l.length

/-- Population variance (ddof = 0), the variance used by the scaler. -/
def popVar (l : List ℚ) : ℚ :=
  (l.map (fun x => (x - colMean l) ^ 2)).sum / l.length

/-- Sample variance (ddof = 1), the variance underlying pandas
`.rolling(...).std()`. -/
def sampleVar (l : List ℚ) : ℚ :=
  (l.map (fun x => (x - colMean l) ^ 2)).sum / ((l.length : ℚ) - 1)

/-- Maximum of a list (`0` on the empty list; rolling windows are never
empty where this is used). -/
def listMax : List ℚ → ℚ
  | [] => 0
  | x :: xs => xs.foldl max x

/-- Last element of a list, defaulting to `0`.  The current row's value
(`close_t`, `volume_t`, ...) is the last element of the trailing window
ending at `t`. -/
def lastD (l : List ℚ) : ℚ :=
  l.getLastD 0

/-- The trailing window of width `w` ending at index `t` under pandas
`rolling(window=w, min_periods=w)` semantics: `some` of the `w` values iff
`w` rows exist up to `t` and none of them is `NaN`. -/
def rollingWindow (xs : List (Option ℚ)) (w t : ℕ) : Option (List ℚ) :=
  if t + 1 < w then none
  else
    if ((xs.drop (t + 1 - w)).take w).length = w ∧
        ((xs.drop (t + 1 - w)).take w).all Option.isSome = true then
      some (((xs.drop (t + 1 - w)).take w).map (fun o => o.getD 0))
    else none

/-- Apply a window statistic at every index, producing a series of the
same length; `f` may itself signal an undefined result (division by a zero
denominator produces `NaN`). -/
def rollingApply (f : List ℚ → Option ℚ) (w : ℕ) (xs : List (Option ℚ)) :
    List (Option ℚ) :=
  (List.range xs.length).map (fun t => (rollingWindow xs w t).bind f)

/-- `calculate_log_returns`: `np.log(close / close.shift(1))`.  Undefined
at `t = 0`; `logQ` is the abstract logarithm, applied only to positive
ratios (on a nonpositive ratio `np.log` yields `NaN`/`-inf`, modelled as
`none`; the theorems below only use this on positive price series, where
the branch is unreachable). -/
def calculate_log_returns (logQ : ℚ → ℚ) (close : List ℚ) : List (Option ℚ) :=
  (List.range close.length).map (fun t =>
    if t = 0 then none
    else
      if 0 < close.getD t 0 / close.getD (t - 1) 0 then
        some (logQ (close.getD t 0 / close.getD (t - 1) 0))
      else none)

/-- `calculate_volatility`: rolling sample standard deviation of returns;
`sq` is the abstract square root applied to the sample variance. -/
def calculate_volatility (sq : ℚ → ℚ) (returns : List (Option ℚ)) (w : ℕ) :
    List (Option ℚ) :=
  rollingApply (fun win => some (sq (sampleVar win))) w returns

/-- `calculate_momentum`: rolling sum of returns. -/
def calculate_momentum (returns : List (Option ℚ)) (w : ℕ) : List (Option ℚ) :=
  rollingApply (fun win => some win.sum) w returns

/-- `(close - rolling_max) / rolling_max` on one window (the current close
is the window's last element).  A zero rolling maximum makes the float
quotient non-finite, modelled as `none`; with positive closes — the only
case the theorems use — the maximum is positive and this branch is
unreachable. -/
def drawdownWindow (win : List ℚ) : Option ℚ :=
  if listMax win = 0 then none else some ((lastD win - listMax win) / listMax win)

/-- `calculate_drawdown`: drawdown from the rolling maximum. -/
def calculate_drawdown (close : List ℚ) (w : ℕ) : List (Option ℚ) :=
  rollingApply drawdownWindow w (close.map some)

/-- `current / rolling_mean` on one window, with
`avg.replace(0, np.nan)`: a zero rolling mean gives an undefined ratio. -/
def ratioWindow (win : List ℚ) : Option ℚ :=
  if colMean win = 0 then none else some (lastD win / colMean win)

/-- `calculate_volume_ratio`: current volume over its rolling average. -/
def calculate_volume_ratio (volume : List ℚ) (w : ℕ) : List (Option ℚ) :=
  rollingApply ratioWindow w (volume.map some)

/-- `calculate_range_compression`: current `high - low` range over its
rolling average. -/
def calculate_range_compression (high low : List ℚ) (w : ℕ) : List (Option ℚ) :=
  rollingApply ratioWindow w ((List.zipWith (fun h l => h - l) high low).map some)

/-- `sum(x)` for `x = np.arange(w)`. -/
def sumX (w : ℕ) : ℚ :=
  ((List.range w).map (fun (j : ℕ) => (j : ℚ))).sum

/-- `sum(x ** 2)` for `x = np.arange(w)`. -/
def sumXsq (w : ℕ) : ℚ :=
  ((List.range w).map (fun (j : ℕ) => (j : ℚ) ^ 2)).sum

/-- `sum(x * y_window)` for `x = np.arange(len(y_window))`. -/
def sumXY (yw : List ℚ) : ℚ :=
  (((List.range yw.length).zip yw).map (fun (p : ℕ × ℚ) => (p.1 : ℚ) * p.2)).sum

/-- `y[i - window + 1 : i + 1]`, the trailing window of the slope loop. -/
def trendWindow (y : List (Option ℚ)) (w i : ℕ) : List (Option ℚ) :=
  (y.drop (i + 1 - w)).take w

/-- The body of the loop of `calculate_trend_slope_fast` at index `i`
(source lines 36–45): `NaN` below `window - 1`, `NaN` if the window
contains a `NaN`, `NaN` if the denominator is zero, otherwise the
closed-form OLS slope. -/
def trendSlopeAt (y : List (Option ℚ)) (w i : ℕ) : Option ℚ :=
  if i + 1 < w then none
  else
    if (trendWindow y w i).all Option.isSome = true then
      if ((w : ℚ) * sumXsq w - sumX w ^ 2) ≠ 0 then
        some (((w : ℚ) * sumXY ((trendWindow y w i).map (fun o => o.getD 0)) -
               sumX w * ((trendWindow y w i).map (fun o => o.getD 0)).sum) /
              ((w : ℚ) * sumXsq w - sumX w ^ 2))
      else none
    else none

/-- `calculate_trend_slope_fast` as a series. -/
def calculate_trend_slope_fast (close : List (Option ℚ)) (w : ℕ) :
    List (Option ℚ) :=
  (List.range close.length).map (fun i => trendSlopeAt close w i)

/-- The eleven feature series of `extract_features` (metadata columns
omitted). -/
structure Features where
  volatility_5d : List (Option ℚ)
  volatility_10d : List (Option ℚ)
  volatility_20d : List (Option ℚ)
  trend_slope_10d : List (Option ℚ)
  trend_slope_20d : List (Option ℚ)
  drawdown_20d : List (Option ℚ)
  volume_ratio_10d : List (Option ℚ)
  volume_ratio_20d : List (Option ℚ)
  range_compression_10d : List (Option ℚ)
  momentum_5d : List (Option ℚ)
  momentum_10d : List (Option ℚ)

/-- `extract_features` (source lines 75–114) for one instrument's rows. -/
def extract_features (logQ sq : ℚ → ℚ) (close high low volume : List ℚ) :
    Features :=
  { volatility_5d := calculate_volatility sq (calculate_log_returns logQ close) 5
    volatility_10d := calculate_volatility sq (calculate_log_returns logQ close) 10
    volatility_20d := calculate_volatility sq (calculate_log_returns logQ close) 20
    trend_slope_10d := calculate_trend_slope_fast (close.map some) 10
    trend_slope_20d := calculate_trend_slope_fast (close.map some) 20
    drawdown_20d := calculate_drawdown close 20
    volume_ratio_10d := calculate_volume_ratio volume 10
    volume_ratio_20d := calculate_volume_ratio volume 20
    range_compression_10d := calculate_range_compression high low 10
    momentum_5d := calculate_momentum (calculate_log_returns logQ close) 5
    momentum_10d := calculate_momentum (calculate_log_returns logQ close) 10 }

/-- The per-row definedness profile of the eleven features: each
return-based feature (volatility, momentum) with window `w` is defined
exactly from row `w` on (its inputs are log returns, undefined at row 0),
every other feature with window `w` exactly from row `w - 1` on. -/
def FeatureDefinednessAt (logQ sq : ℚ → ℚ) (close high low volume : List ℚ)
    (t : ℕ) : Prop :=
  (((extract_features logQ sq close high low volume).volatility_5d.getD t none).isSome ↔ 5 ≤ t) ∧
  (((extract_features logQ sq close high low volume).volatility_10d.getD t none).isSome ↔ 10 ≤ t) ∧
  (((extract_features logQ sq close high low volume).volatility_20d.getD t none).isSome ↔ 20 ≤ t) ∧
  (((extract_features logQ sq close high low volume).trend_slope_10d.getD t none).isSome ↔ 9 ≤ t) ∧
  (((extract_features logQ sq close high low volume).trend_slope_20d.getD t none).isSome ↔ 19 ≤ t) ∧
  (((extract_features logQ sq close high low volume).drawdown_20d.getD t none).isSome ↔ 19 ≤ t) ∧
  (((extract_features logQ sq close high low volume).volume_ratio_10d.getD t none).isSome ↔ 9 ≤ t) ∧
  (((extract_features logQ sq close high low volume).volume_ratio_20d.getD t none).isSome ↔ 19 ≤ t) ∧
  (((extract_features logQ sq close high low volume).range_compression_10d.getD t none).isSome ↔ 9 ≤ t) ∧
  (((extract_features logQ sq close high low volume).momentum_5d.getD t none).isSome ↔ 5 ≤ t) ∧
  (((extract_features logQ sq close high low volume).momentum_10d.getD t none).isSome ↔ 10 ≤ t)

/-! ## Scaler (spec §4.4)

Modelled from the spec: the Scaler component is realised in the source by
the external `sklearn.preprocessing.StandardScaler` (absent from `src/`;
`train_clustering` only calls `fit_transform`).  Following spec §4.4 and
its recommended zero-variance policy (which is also the library's
documented behaviour), `fit` computes per-column mean and population
variance over a column-major matrix, clamps zero-variance columns to unit
scale, and fails on an empty matrix (zero rows ⇔ some column is empty). -/

/-- Modelled from the spec: `fit` returns, per column, the pair
`(mean, scale²)` where `scale²` is the population variance clamped to `1`
for zero-variance columns, or `none` on a matrix with zero rows. -/
def Scaler.fit (X : List (List ℚ)) : Option (List (ℚ × ℚ)) :=
  if X.isEmpty ∨ X.any List.isEmpty then none
  else some (X.map (fun col => (colMean col, if popVar col = 0 then 1 else popVar col)))

/-- Modelled from the spec: `transform` for one column:
`(x - mean) / scale`, where `scale` is the (possibly irrational)
population standard deviation, passed in explicitly as any `s` with
`s ^ 2` equal to the fitted variance. -/
def Scaler.transformCol (mu s : ℚ) (col : List ℚ) : List ℚ :=
  col.map (fun x => (x - mu) / s)

/-! ## Pattern statistics (`calculate_pattern_stats`, lines 252–265) -/

/-- Round half to even, Python's `round` on an exact value. -/
def roundHalfEven (x : ℚ) : ℤ :=
  if x - ⌊x⌋ < 1/2 then ⌊x⌋
  else if 1/2 < x - ⌊x⌋ then ⌊x⌋ + 1
  else if ⌊x⌋ % 2 = 0 then ⌊x⌋ else ⌊x⌋ + 1

/-- `round(q, 2)` on an exact rational. -/
def round2 (q : ℚ) : ℚ :=
  (roundHalfEven (q * 100) : ℚ) / 100

/-- Python dict assignment `stats[pattern_id] = v`: replace an existing
entry for the key, otherwise append. -/
def statUpsert (stats : List (String × ℕ × ℚ)) (pid : String) (v : ℕ × ℚ) :
    List (String × ℕ × ℚ) :=
  if stats.any (fun e => e.1 = pid) then
    stats.map (fun e => if e.1 = pid then (pid, v) else e)
  else stats ++ [(pid, v)]

/-- `calculate_pattern_stats`: for each mapped `(cluster_id, pattern_id)`
pair, the number of rows labelled with that cluster and its percentage of
all labelled rows, rounded to two decimals, keyed by pattern id. -/
def calculate_pattern_stats (labels : List ℕ) (mapping : List (ℕ × String)) :
    List (String × ℕ × ℚ) :=
  mapping.foldl (fun stats p =>
    statUpsert stats p.2
      ((labels.countP (fun x => decide (x = p.1))),
       round2 (((labels.countP (fun x => decide (x = p.1))) : ℚ) / (labels.length : ℚ) * 100)))
    []

/-! ## Generic list helpers -/

/-- Indexing into a series built by mapping over `List.range`. -/
theorem mapRange_getD {α : Type} (n : ℕ) (g : ℕ → α) (t : ℕ) (d : α) :
    ((List.range n).map g).getD t d = if t < n then g t else d := by
  by_cases h : t < n
  · rw [if_pos h, List.getD_eq_getElem?_getD,
      List.getElem?_eq_getElem (by simpa using h)]
    simp
  · rw [if_neg h, List.getD_eq_getElem?_getD,
      List.getElem?_eq_none (by simpa using Nat.le_of_not_lt h)]
    rfl

/-- A nodup list is no longer than any list containing it. -/
theorem nodup_subset_length {l1 l2 : List String} (h1 : l1.Nodup)
    (h2 : l1 ⊆ l2) : l1.length ≤ l2.length :=
  (List.subperm_of_subset h1 h2).length_le

/-! ## Stable descending sort and greedy pick -/

theorem mem_insertDesc {z p : String × ℚ} {l : List (String × ℚ)} :
    z ∈ insertDesc p l ↔ z = p ∨ z ∈ l := by
  induction l with
  | nil => simp [insertDesc]
  | cons q qs ih =>
    simp only [insertDesc]
    split
    · simp only [List.mem_cons, ih]
      tauto
    · simp only [List.mem_cons]

theorem insertDesc_pairwise {p : String × ℚ} {l : List (String × ℚ)}
    (h : l.Pairwise (fun a b => b.2 ≤ a.2)) :
    (insertDesc p l).Pairwise (fun a b => b.2 ≤ a.2) := by
  induction l with
  | nil => simp [insertDesc]
  | cons q qs ih =>
    rcases List.pairwise_cons.mp h with ⟨hq, hqs⟩
    simp only [insertDesc]
    split
    · rename_i hgt
      refine List.pairwise_cons.mpr ⟨?_, ih hqs⟩
      intro z hz
      rcases mem_insertDesc.mp hz with rfl | hz
      · exact le_of_lt hgt
      · exact hq z hz
    · rename_i hle
      push_neg at hle
      refine List.pairwise_cons.mpr ⟨?_, h⟩
      intro z hz
      rcases List.mem_cons.mp hz with rfl | hz
      · exact hle
      · exact le_trans (hq z hz) hle

theorem sortDesc_mem {z : String × ℚ} {l : List (String × ℚ)} :
    z ∈ sortDesc l ↔ z ∈ l := by
  induction l with
  | nil => simp [sortDesc]
  | cons q qs ih =>
    show z ∈ insertDesc q (sortDesc qs) ↔ _
    rw [mem_insertDesc, ih]
    exact (List.mem_cons).symm

theorem sortDesc_sorted (l : List (String × ℚ)) :
    (sortDesc l).Pairwise (fun a b => b.2 ≤ a.2) := by
  induction l with
  | nil => simp [sortDesc]
  | cons q qs ih => exact insertDesc_pairwise ih

/-- In a descending-sorted list, the head of the filtered list dominates
every element satisfying the predicate. -/
theorem filter_head_max {l t : List (String × ℚ)} {P : String × ℚ → Bool}
    {p : String × ℚ} (hs : l.Pairwise (fun a b => b.2 ≤ a.2))
    (hf : l.filter P = p :: t) :
    ∀ z ∈ l, P z = true → z.2 ≤ p.2 := by
  induction l generalizing t with
  | nil => simp at hf
  | cons x xs ih =>
    rcases List.pairwise_cons.mp hs with ⟨hx, hxs⟩
    by_cases hPx : P x = true
    · rw [List.filter_cons_of_pos hPx] at hf
      injection hf with h1 h2
      subst h1
      intro z hz hPz
      rcases List.mem_cons.mp hz with rfl | hz
      · exact le_refl _
      · exact hx z hz
    · rw [List.filter_cons_of_neg (by simpa using hPx)] at hf
      intro z hz hPz
      rcases List.mem_cons.mp hz with rfl | hz
      · exact absurd hPz hPx
      · exact ih hxs hf z hz hPz

/-- What a successful greedy pick guarantees: the picked pair is a real
score entry, its pattern is unused, and its score dominates every unused
pattern's score. -/
theorem pickBest_eq_some {scores : List (String × ℚ)} {used : List String}
    {pv : String × ℚ} (h : pickBest scores used = some pv) :
    pv ∈ scores ∧ pv.1 ∉ used ∧ ∀ z ∈ scores, z.1 ∉ used → z.2 ≤ pv.2 := by
  unfold pickBest at h
  cases hf : (sortDesc scores).filter (fun z => decide (z.1 ∉ used)) with
  | nil => rw [hf] at h; simp at h
  | cons q qs =>
    rw [hf] at h
    simp only [List.head?] at h
    injection h with h
    subst h
    have hq : q ∈ (sortDesc scores).filter (fun z => decide (z.1 ∉ used)) := by
      rw [hf]; exact List.mem_cons_self _ _
    rcases List.mem_filter.mp hq with ⟨hmem, hdec⟩
    refine ⟨sortDesc_mem.mp hmem, of_decide_eq_true hdec, ?_⟩
    intro z hz hzu
    exact filter_head_max (sortDesc_sorted scores) hf z (sortDesc_mem.mpr hz)
      (decide_eq_true hzu)

/-- A failed greedy pick means every pattern is already used. -/
theorem pickBest_eq_none {scores : List (String × ℚ)} {used : List String}
    (h : pickBest scores used = none) : ∀ z ∈ scores, z.1 ∈ used := by
  unfold pickBest at h
  rw [List.head?_eq_none_iff, List.filter_eq_nil_iff] at h
  intro z hz
  by_contra hzu
  exact h z (sortDesc_mem.mpr hz) (by simpa using hzu)

/-- The pattern ids scored for any centroid are exactly the nine catalog
ids, in catalog order. -/
theorem patternScores_ids (c : List ℚ) (cols : List String) :
    (patternScores c cols).map Prod.fst = patternIdsL := rfl

/-! ## Structural lemmas about the greedy mapping loop -/

/-- Every entry produced by the loop has its cluster id in the processed
range. -/
theorem mapClustersFrom_key_bounds (cols : List String) :
    ∀ (cs : List (List ℚ)) (i0 : ℕ) (used : List String) (p : ℕ × String),
      p ∈ mapClustersFrom cols cs i0 used → i0 ≤ p.1 ∧ p.1 < i0 + cs.length := by
  intro cs
  induction cs with
  | nil => intro i0 used p hp; simp [mapClustersFrom] at hp
  | cons c rest ih =>
    intro i0 used p hp
    cases hpick : pickBest (patternScores c cols) used with
    | some pv =>
      simp only [mapClustersFrom, hpick] at hp
      rcases List.mem_cons.mp hp with rfl | hp
      · simp
      · have h2 := ih (i0 + 1) (pv.1 :: used) p hp
        simp only [List.length_cons]
        omega
    | none =>
      simp only [mapClustersFrom, hpick] at hp
      have h2 := ih (i0 + 1) used p hp
      simp only [List.length_cons]
      omega

/-- Cluster ids appear in strictly ascending order. -/
theorem mapClustersFrom_keys_sorted (cols : List String) :
    ∀ (cs : List (List ℚ)) (i0 : ℕ) (used : List String),
      ((mapClustersFrom cols cs i0 used).map Prod.fst).Pairwise (· < ·) := by
  intro cs
  induction cs with
  | nil => intro i0 used; simp [mapClustersFrom]
  | cons c rest ih =>
    intro i0 used
    cases hpick : pickBest (patternScores c cols) used with
    | some pv =>
      simp only [mapClustersFrom, hpick, List.map_cons]
      refine List.pairwise_cons.mpr ⟨?_, ih (i0 + 1) (pv.1 :: used)⟩
      intro k hk
      obtain ⟨q, hq, hqe⟩ := List.mem_map.mp hk
      have h2 := mapClustersFrom_key_bounds cols rest (i0 + 1) (pv.1 :: used) q hq
      show i0 < k
      omega
    | none =>
      simp only [mapClustersFrom, hpick]
      exact ih (i0 + 1) used

/-- Assigned pattern ids are pairwise distinct and disjoint from the
incoming used set. -/
theorem mapClustersFrom_values (cols : List String) :
    ∀ (cs : List (List ℚ)) (i0 : ℕ) (used : List String),
      ((mapClustersFrom cols cs i0 used).map Prod.snd).Nodup ∧
      ∀ v ∈ (mapClustersFrom cols cs i0 used).map Prod.snd, v ∉ used := by
  intro cs
  induction cs with
  | nil => intro i0 used; simp [mapClustersFrom]
  | cons c rest ih =>
    intro i0 used
    cases hpick : pickBest (patternScores c cols) used with
    | some pv =>
      have hpb := pickBest_eq_some hpick
      obtain ⟨hnd, hfr⟩ := ih (i0 + 1) (pv.1 :: used)
      simp only [mapClustersFrom, hpick, List.map_cons]
      constructor
      · refine List.nodup_cons.mpr ⟨?_, hnd⟩
        intro hin
        exact (hfr _ hin) (List.mem_cons_self _ _)
      · intro v hv
        rcases List.mem_cons.mp hv with rfl | hv
        · exact hpb.2.1
        · intro hvu
          exact (hfr v hv) (List.mem_cons_of_mem _ hvu)
    | none =>
      simp only [mapClustersFrom, hpick]
      exact ih (i0 + 1) used

/-- Each assigned pattern is a genuine score entry for that cluster's
centroid, is not in the incoming used set nor claimed by a lower-id
cluster, and its score dominates every pattern still available at that
step. -/
theorem mapClustersFrom_choice (cols : List String) :
    ∀ (cs : List (List ℚ)) (i0 : ℕ) (used : List String) (p : ℕ × String),
      p ∈ mapClustersFrom cols cs i0 used →
      ∃ s, (p.2, s) ∈ patternScores (cs.getD (p.1 - i0) []) cols ∧
        (p.2 ∉ used ∧
          ∀ q ∈ mapClustersFrom cols cs i0 used, q.1 < p.1 → q.2 ≠ p.2) ∧
        (∀ z ∈ patternScores (cs.getD (p.1 - i0) []) cols,
          (z.1 ∉ used ∧
            ∀ q ∈ mapClustersFrom cols cs i0 used, q.1 < p.1 → q.2 ≠ z.1) →
          z.2 ≤ s) := by
  intro cs
  induction cs with
  | nil => intro i0 used p hp; simp [mapClustersFrom] at hp
  | cons c rest ih =>
    intro i0 used p hp
    cases hpick : pickBest (patternScores c cols) used with
    | some pv =>
      have hpb := pickBest_eq_some hpick
      simp only [mapClustersFrom, hpick] at hp ⊢
      rcases List.mem_cons.mp hp with rfl | hp
      · have hzero : ((i0, pv.1) : ℕ × String).1 - i0 = 0 := by simp
        rw [hzero, List.getD_cons_zero]
        refine ⟨pv.2, ?_, ⟨hpb.2.1, ?_⟩, ?_⟩
        · simpa using hpb.1
        · intro q hq hqlt
          exfalso
          rcases List.mem_cons.mp hq with rfl | hq
          · simp at hqlt
          · have h2 := mapClustersFrom_key_bounds cols rest (i0 + 1) (pv.1 :: used) q hq
            simp at hqlt
            omega
        · intro z hz hav
          exact hpb.2.2 z hz hav.1
      · have hb := mapClustersFrom_key_bounds cols rest (i0 + 1) (pv.1 :: used) p hp
        obtain ⟨s, hs, ⟨hnotin, hfresh⟩, hmax⟩ := ih (i0 + 1) (pv.1 :: used) p hp
        have hgd : (c :: rest).getD (p.1 - i0) [] = rest.getD (p.1 - (i0 + 1)) [] := by
          have h3 : p.1 - i0 = (p.1 - (i0 + 1)) + 1 := by omega
          rw [h3, List.getD_cons_succ]
        rw [hgd]
        refine ⟨s, hs, ⟨?_, ?_⟩, ?_⟩
        · intro hin
          exact hnotin (List.mem_cons_of_mem _ hin)
        · intro q hq hqlt
          rcases List.mem_cons.mp hq with rfl | hq
          · intro heq
            exact hnotin (heq ▸ List.mem_cons_self _ _)
          · exact hfresh q hq hqlt
        · intro z hz hav
          apply hmax z hz
          constructor
          · have hne : pv.1 ≠ z.1 :=
              hav.2 (i0, pv.1) (List.mem_cons_self _ _) (by show i0 < p.1; omega)
            intro hin
            rcases List.mem_cons.mp hin with h4 | h4
            · exact hne h4.symm
            · exact hav.1 h4
          · intro q hq hqlt
            exact hav.2 q (List.mem_cons_of_mem _ hq) hqlt
    | none =>
      simp only [mapClustersFrom, hpick] at hp ⊢
      have hb := mapClustersFrom_key_bounds cols rest (i0 + 1) used p hp
      obtain ⟨s, hs, hav, hmax⟩ := ih (i0 + 1) used p hp
      have hgd : (c :: rest).getD (p.1 - i0) [] = rest.getD (p.1 - (i0 + 1)) [] := by
        have h3 : p.1 - i0 = (p.1 - (i0 + 1)) + 1 := by omega
        rw [h3, List.getD_cons_succ]
      rw [hgd]
      exact ⟨s, hs, hav, hmax⟩

/-- A processed cluster left unmapped means every catalog pattern was in
the incoming used set or claimed by a lower-id cluster. -/
theorem mapClustersFrom_unmapped (cols : List String) :
    ∀ (cs : List (List ℚ)) (i0 : ℕ) (used : List String) (j : ℕ),
      i0 ≤ j → j < i0 + cs.length →
      j ∉ (mapClustersFrom cols cs i0 used).map Prod.fst →
      ∀ pid ∈ patternIdsL,
        pid ∈ used ∨ ∃ q ∈ mapClustersFrom cols cs i0 used, q.1 < j ∧ q.2 = pid := by
  intro cs
  induction cs with
  | nil =>
    intro i0 used j hij hjlt
    simp only [List.length_nil] at hjlt
    omega
  | cons c rest ih =>
    intro i0 used j hij hjlt hnot pid hpid
    cases hpick : pickBest (patternScores c cols) used with
    | some pv =>
      simp only [mapClustersFrom, hpick, List.map_cons] at hnot ⊢
      have hji0 : j ≠ i0 := by
        intro h4
        exact hnot (by rw [h4]; exact List.mem_cons_self _ _)
      have hnot2 : j ∉ (mapClustersFrom cols rest (i0 + 1) (pv.1 :: used)).map Prod.fst := by
        intro h4
        exact hnot (List.mem_cons_of_mem _ h4)
      have hlt2 : j < i0 + 1 + rest.length := by
        simp only [List.length_cons] at hjlt
        omega
      rcases ih (i0 + 1) (pv.1 :: used) j (by omega) hlt2 hnot2 pid hpid with hin | hex
      · rcases List.mem_cons.mp hin with rfl | hin
        · right
          exact ⟨(i0, pv.1), List.mem_cons_self _ _, by show i0 < j; omega, rfl⟩
        · left
          exact hin
      · obtain ⟨q, hq, hqlt, hqe⟩ := hex
        right
        exact ⟨q, List.mem_cons_of_mem _ hq, hqlt, hqe⟩
    | none =>
      simp only [mapClustersFrom, hpick] at hnot ⊢
      by_cases hji0 : j = i0
      · have h5 : pid ∈ (patternScores c cols).map Prod.fst := by
          rw [patternScores_ids]
          exact hpid
        obtain ⟨z, hzmem, hze⟩ := List.mem_map.mp h5
        left
        rw [← hze]
        exact pickBest_eq_none hpick z hzmem
      · have hlt2 : j < i0 + 1 + rest.length := by
          simp only [List.length_cons] at hjlt
          omega
        exact ih (i0 + 1) used j (by omega) hlt2 hnot pid hpid

/-- When at most nine clusters remain and the used set stays inside the
nine-element catalog, the greedy pick always succeeds, so every cluster
gets mapped. -/
theorem mapClustersFrom_total (cols : List String) :
    ∀ (cs : List (List ℚ)) (i0 : ℕ) (used : List String),
      used.Nodup → used ⊆ patternIdsL → cs.length + used.length ≤ 9 →
      (mapClustersFrom cols cs i0 used).map Prod.fst = List.range' i0 cs.length := by
  intro cs
  induction cs with
  | nil => intro i0 used _ _ _; simp [mapClustersFrom]
  | cons c rest ih =>
    intro i0 used hnd hsub hlen
    cases hpick : pickBest (patternScores c cols) used with
    | none =>
      exfalso
      have hall := pickBest_eq_none hpick
      have hids : patternIdsL ⊆ used := by
        intro pid hpid
        have h5 : pid ∈ (patternScores c cols).map Prod.fst := by
          rw [patternScores_ids]
          exact hpid
        obtain ⟨z, hzmem, hze⟩ := List.mem_map.mp h5
        rw [← hze]
        exact hall z hzmem
      have h9 : patternIdsL.length ≤ used.length := nodup_subset_length (by decide) hids
      simp only [patternIdsL, List.length_cons, List.length_nil] at h9
      simp only [List.length_cons] at hlen
      omega
    | some pv =>
      have hpb := pickBest_eq_some hpick
      simp only [mapClustersFrom, hpick, List.map_cons, List.length_cons]
      have hsub2 : (pv.1 :: used) ⊆ patternIdsL := by
        intro u hu
        rcases List.mem_cons.mp hu with rfl | hu
        · have h5 : pv.1 ∈ (patternScores c cols).map Prod.fst :=
            List.mem_map_of_mem Prod.fst hpb.1
          rwa [patternScores_ids] at h5
        · exact hsub hu
      have hrec := ih (i0 + 1) (pv.1 :: used) (List.nodup_cons.mpr ⟨hpb.2.1, hnd⟩)
        hsub2 (by simp only [List.length_cons] at hlen ⊢; omega)
      rw [List.range'_succ, hrec]

/-- C1: `map_clusters_to_patterns` processes clusters in ascending
cluster-id order; for each cluster it computes all nine pattern scores
P1..P9 against the cluster's centroid — on the pipeline's feature schema
these are exactly the spec §4.6 formulas applied to the centroid's named
components (conjunct 4) — and assigns the cluster a genuinely scored
pattern that is not claimed by any lower-id cluster and whose score is
maximal among the patterns not so claimed (conjunct 2); a cluster in range
remains unmapped exactly when all nine patterns are claimed by lower-id
clusters (conjunct 3). -/
theorem C1_map_clusters_greedy (centroids : List (List ℚ)) :
    (((map_clusters_to_patterns centroids featureCols).map Prod.fst).Pairwise (· < ·)) ∧
    (∀ p ∈ map_clusters_to_patterns centroids featureCols,
      p.1 < centroids.length ∧
      ∃ s, (p.2, s) ∈ patternScores (centroids.getD p.1 []) featureCols ∧
        (∀ q ∈ map_clusters_to_patterns centroids featureCols,
          q.1 < p.1 → q.2 ≠ p.2) ∧
        (∀ z ∈ patternScores (centroids.getD p.1 []) featureCols,
          (∀ q ∈ map_clusters_to_patterns centroids featureCols,
            q.1 < p.1 → q.2 ≠ z.1) →
          z.2 ≤ s)) ∧
    (∀ i, i < centroids.length →
      (i ∉ (map_clusters_to_patterns centroids featureCols).map Prod.fst ↔
        ∀ pid ∈ patternIdsL,
          ∃ q ∈ map_clusters_to_patterns centroids featureCols,
            q.1 < i ∧ q.2 = pid)) ∧
    (∀ c : List ℚ, patternScores c featureCols =
      specPatternScores (cAt c 1) (cAt c 3) (cAt c 10) (cAt c 9) (cAt c 8)
        (cAt c 6) (cAt c 5)) := by
  refine ⟨mapClustersFrom_keys_sorted featureCols centroids 0 [], ?_, ?_, fun c => rfl⟩
  · intro p hp
    have hb := mapClustersFrom_key_bounds featureCols centroids 0 [] p hp
    obtain ⟨s, hs, ⟨_, hfresh⟩, hmax⟩ :=
      mapClustersFrom_choice featureCols centroids 0 [] p hp
    rw [Nat.sub_zero] at hs hmax
    refine ⟨by omega, s, hs, hfresh, ?_⟩
    intro z hz hzav
    exact hmax z hz ⟨List.not_mem_nil _, hzav⟩
  · intro i hi
    constructor
    · intro hnot pid hpid
      rcases mapClustersFrom_unmapped featureCols centroids 0 [] i (Nat.zero_le i)
          (by omega) hnot pid hpid with hin | hex
      · exact absurd hin (List.not_mem_nil _)
      · exact hex
    · intro hall hmem
      obtain ⟨p, hp, hpe⟩ := List.mem_map.mp hmem
      obtain ⟨s, hs, ⟨_, hfresh⟩, _⟩ :=
        mapClustersFrom_choice featureCols centroids 0 [] p hp
      have hpid : p.2 ∈ patternIdsL := by
        rw [← patternScores_ids (centroids.getD (p.1 - 0) []) featureCols]
        exact List.mem_map_of_mem Prod.fst hs
      obtain ⟨q, hq, hqlt, hqe⟩ := hall p.2 hpid
      rw [hpe] at hfresh
      exact hfresh q hq hqlt hqe

/-- C2: the mapping returned by `map_clusters_to_patterns` is injective in
both directions — the cluster ids (keys) are pairwise distinct, and the
assigned pattern ids (values) are pairwise distinct. -/
theorem C2_mapping_injective (centroids : List (List ℚ)) (cols : List String) :
    ((map_clusters_to_patterns centroids cols).map Prod.fst).Nodup ∧
    ((map_clusters_to_patterns centroids cols).map Prod.snd).Nodup :=
  ⟨(mapClustersFrom_keys_sorted cols centroids 0 []).imp (fun h => Nat.ne_of_lt h),
   (mapClustersFrom_values cols centroids 0 []).1⟩

/-- On the schema `["momentum_10d"]`, which lacks every feature the
scoring formulas expect except `momentum_10d`, all nine scores of the
centroid `[3]` are computed from the defaulted component `0`. -/
theorem scoresDefaultedExample :
    patternScores ([3]) (["momentum_10d"]) =
      [("P1", -6), ("P2", 0), ("P3", 6), ("P4", -6), ("P5", 6), ("P6", -6),
       ("P7", 6), ("P8", -(3/2)), ("P9", -3)] := by
  show [("P1", -|(3:ℚ)| - |(3:ℚ)|), ("P2", (3:ℚ) - |(3:ℚ)|), ("P3", (3:ℚ) + 3),
        ("P4", -(3:ℚ) - 3), ("P5", (3:ℚ) + |(3:ℚ)|), ("P6", -(3:ℚ) - 3),
        ("P7", (3:ℚ) + |(3:ℚ)|), ("P8", -|(3:ℚ)| + (3:ℚ) * (1/2)),
        ("P9", -(3:ℚ))] = _
  norm_num

/-- C3: on a feature schema missing the expected names (here only
`momentum_10d` is present), the lookup `idx.get(name, 0)` silently yields
index `0` instead of raising: all nine scores are computed from component
`0` of the centroid `[3]` and the mapping returns normally — the code does
not fail loudly as the spec requires. -/
theorem C3_silent_default_lookup :
    idxGet (["momentum_10d"]) ("volatility_10d") = 0 ∧
    idxGet (["momentum_10d"]) ("trend_slope_10d") = 0 ∧
    patternScores ([3]) (["momentum_10d"]) =
      [("P1", -6), ("P2", 0), ("P3", 6), ("P4", -6), ("P5", 6), ("P6", -6),
       ("P7", 6), ("P8", -(3/2)), ("P9", -3)] ∧
    map_clusters_to_patterns ([[3]]) (["momentum_10d"]) = [(0, "P3")] := by
  refine ⟨rfl, rfl, scoresDefaultedExample, ?_⟩
  show mapClustersFrom (["momentum_10d"]) ([[3]]) 0 [] = _
  rw [mapClustersFrom, scoresDefaultedExample]
  norm_num [pickBest, sortDesc, insertDesc, List.foldr, List.filter, mapClustersFrom]

/-- C10: whenever the number of centroids is at most the catalog size 9,
every cluster id `0 .. k-1` receives exactly one pattern: the mapping's
key list is exactly `[0, ..., k-1]`. -/
theorem C10_total_mapping (centroids : List (List ℚ)) (cols : List String)
    (hk : centroids.length ≤ 9) :
    (map_clusters_to_patterns centroids cols).map Prod.fst =
      List.range centroids.length := by
  rw [List.range_eq_range']
  exact mapClustersFrom_total cols centroids 0 [] List.nodup_nil
    (List.nil_subset _) (by simpa using hk)

/-- Witness for C10 at a concrete input. -/
theorem C10_total_mapping_witness :
    (map_clusters_to_patterns ([[1], [2]]) (["volatility_10d"])).map Prod.fst =
      List.range 2 :=
  C10_total_mapping ([[1], [2]]) (["volatility_10d"]) (by decide)

/-! ## Rolling-window lemmas -/

/-- An in-range `getD` entry is a member of the list. -/
theorem getD_mem {l : List ℚ} {i : ℕ} (h : i < l.length) : l.getD i 0 ∈ l := by
  rw [List.getD_eq_getElem?_getD, List.getElem?_eq_getElem h]
  exact List.getElem_mem h

/-- For a series defined exactly from index `a` on, the `w`-wide slice
starting at `k` is all-defined iff it starts at or after `a`. -/
theorem window_all_isSome {xs : List (Option ℚ)} {k w a : ℕ}
    (hkw : k + w ≤ xs.length) (hw : 1 ≤ w)
    (hprof : ∀ (i : ℕ) (h : i < xs.length), (xs[i].isSome ↔ a ≤ i)) :
    (((xs.drop k).take w).all Option.isSome = true) ↔ a ≤ k := by
  rw [List.all_eq_true]
  constructor
  · intro hall
    have h0 : k < xs.length := by omega
    have h1 : xs[k].isSome = true := by
      apply hall
      rw [List.mem_iff_getElem]
      refine ⟨0, ?_, ?_⟩
      · rw [List.length_take, List.length_drop]
        omega
      · simp only [List.getElem_take, List.getElem_drop, Nat.add_zero]
    exact (hprof k h0).mp h1
  · intro hak x hx
    rw [List.mem_iff_getElem] at hx
    obtain ⟨j, hj, hje⟩ := hx
    have hj2 : j < w := by
      rw [List.length_take, List.length_drop] at hj
      omega
    have hkj : k + j < xs.length := by omega
    rw [← hje]
    simp only [List.getElem_take, List.getElem_drop]
    exact (hprof (k + j) hkj).mpr (by omega)

/-- Definedness of a rolling window under a "defined from `a` on"
profile. -/
theorem rollingWindow_isSome_iff {xs : List (Option ℚ)} {w t a : ℕ}
    (hw : 1 ≤ w) (ht : t < xs.length)
    (hprof : ∀ (i : ℕ) (h : i < xs.length), (xs[i].isSome ↔ a ≤ i)) :
    (rollingWindow xs w t).isSome = true ↔ a + w ≤ t + 1 := by
  unfold rollingWindow
  by_cases h1 : t + 1 < w
  · rw [if_pos h1]
    simp only [Option.isSome_none, Bool.false_eq_true, false_iff]
    omega
  · rw [if_neg h1]
    push_neg at h1
    have hlen : ((xs.drop (t + 1 - w)).take w).length = w := by
      rw [List.length_take, List.length_drop]
      omega
    have hiff := @window_all_isSome xs (t + 1 - w) w a (by omega) hw hprof
    by_cases h2 : ((xs.drop (t + 1 - w)).take w).all Option.isSome = true
    · rw [if_pos ⟨hlen, h2⟩]
      simp only [Option.isSome_some, true_iff]
      have h3 := hiff.mp h2
      omega
    · rw [if_neg (fun hc => h2 hc.2)]
      simp only [Option.isSome_none, Bool.false_eq_true, false_iff]
      intro hle
      exact h2 (hiff.mpr (by omega))

/-- A realised window has exactly `w` values, and each is the value of a
defined entry of the underlying series. -/
theorem rollingWindow_some {xs : List (Option ℚ)} {w t : ℕ} {vals : List ℚ}
    (h : rollingWindow xs w t = some vals) :
    vals.length = w ∧ ∀ v ∈ vals, some v ∈ xs := by
  unfold rollingWindow at h
  by_cases h1 : t + 1 < w
  · rw [if_pos h1] at h
    simp at h
  · rw [if_neg h1] at h
    by_cases h2 : ((xs.drop (t + 1 - w)).take w).length = w ∧
        ((xs.drop (t + 1 - w)).take w).all Option.isSome = true
    · rw [if_pos h2] at h
      injection h with h
      subst h
      refine ⟨by rw [List.length_map]; exact h2.1, ?_⟩
      intro v hv
      rw [List.mem_map] at hv
      obtain ⟨o, ho, hoe⟩ := hv
      have hs := List.all_eq_true.mp h2.2 o ho
      have ho2 : o = some v := by
        cases o with
        | none => simp at hs
        | some x =>
          simp only [Option.getD_some] at hoe
          rw [hoe]
      exact (List.Sublist.subset
        ((List.take_sublist _ _).trans (List.drop_sublist _ _))) (ho2 ▸ ho)
    · rw [if_neg h2] at h
      simp at h

/-- Definedness of one entry of `rollingApply` under a definedness
profile, provided the statistic is defined on every realised window. -/
theorem rollingApply_getD_isSome {f : List ℚ → Option ℚ} {w : ℕ}
    {xs : List (Option ℚ)} {a t : ℕ} (hw : 1 ≤ w) (ht : t < xs.length)
    (hprof : ∀ (i : ℕ) (h : i < xs.length), (xs[i].isSome ↔ a ≤ i))
    (hf : ∀ vals, rollingWindow xs w t = some vals → (f vals).isSome = true) :
    (((rollingApply f w xs).getD t none).isSome = true) ↔ a + w ≤ t + 1 := by
  unfold rollingApply
  rw [mapRange_getD, if_pos ht]
  have hiff := @rollingWindow_isSome_iff xs w t a hw ht hprof
  cases hrw : rollingWindow xs w t with
  | none =>
    rw [hrw] at hiff
    simp only [Option.isSome_none, Bool.false_eq_true, false_iff] at hiff
    simp only [Option.none_bind, Option.isSome_none, Bool.false_eq_true, false_iff]
    exact hiff
  | some vals =>
    rw [hrw] at hiff
    simp only [Option.isSome_some, true_iff] at hiff
    simp only [Option.some_bind]
    rw [hf vals hrw]
    simp [hiff]

/-- The length of every feature series equals the input length. -/
theorem rollingApply_length (f : List ℚ → Option ℚ) (w : ℕ)
    (xs : List (Option ℚ)) : (rollingApply f w xs).length = xs.length := by
  simp [rollingApply]

theorem calculate_log_returns_length (logQ : ℚ → ℚ) (close : List ℚ) :
    (calculate_log_returns logQ close).length = close.length := by
  simp [calculate_log_returns]

/-- On a positive price series, log returns are defined exactly from
index 1 on. -/
theorem calculate_log_returns_isSome {logQ : ℚ → ℚ} {close : List ℚ}
    (hpos : ∀ x ∈ close, 0 < x) :
    ∀ (i : ℕ) (h : i < (calculate_log_returns logQ close).length),
      ((calculate_log_returns logQ close)[i].isSome ↔ 1 ≤ i) := by
  intro i h
  have hi : i < close.length := by
    rwa [calculate_log_returns_length] at h
  unfold calculate_log_returns
  simp only [List.getElem_map, List.getElem_range]
  by_cases h0 : i = 0
  · subst h0
    simp
  · rw [if_neg h0]
    have hp1 : 0 < close.getD i 0 / close.getD (i - 1) 0 :=
      div_pos (hpos _ (getD_mem hi)) (hpos _ (getD_mem (by omega)))
    rw [if_pos hp1]
    simp only [Option.isSome_some, true_iff]
    omega

/-! ## Max / last / mean helpers for window statistics -/

theorem le_foldlMax (xs : List ℚ) : ∀ (x a : ℚ), a ∈ x :: xs → a ≤ xs.foldl max x := by
  induction xs with
  | nil =>
    intro x a ha
    rcases List.mem_cons.mp ha with rfl | h
    · exact le_refl _
    · exact absurd h (List.not_mem_nil a)
  | cons y ys ih =>
    intro x a ha
    show a ≤ ys.foldl max (max x y)
    rcases List.mem_cons.mp ha with rfl | ha2
    · exact le_trans (le_max_left a y)
        (ih (max a y) (max a y) (List.mem_cons_self _ _))
    · rcases List.mem_cons.mp ha2 with rfl | ha3
      · exact le_trans (le_max_right x a)
          (ih (max x a) (max x a) (List.mem_cons_self _ _))
      · exact ih (max x y) a (List.mem_cons_of_mem _ ha3)

theorem foldlMax_mem (xs : List ℚ) : ∀ x : ℚ, xs.foldl max x ∈ x :: xs := by
  induction xs with
  | nil => intro x; simp [List.foldl]
  | cons y ys ih =>
    intro x
    show ys.foldl max (max x y) ∈ _
    rcases List.mem_cons.mp (ih (max x y)) with h2 | h2
    · rcases max_choice x y with h3 | h3
      · rw [h2, h3]; exact List.mem_cons_self _ _
      · rw [h2, h3]; exact List.mem_cons_of_mem _ (List.mem_cons_self _ _)
    · exact List.mem_cons_of_mem _ (List.mem_cons_of_mem _ h2)

theorem listMax_mem {l : List ℚ} (h : l ≠ []) : listMax l ∈ l := by
  cases l with
  | nil => exact absurd rfl h
  | cons x xs => exact foldlMax_mem xs x

theorem le_listMax {l : List ℚ} (x : ℚ) (hx : x ∈ l) : x ≤ listMax l := by
  cases l with
  | nil => exact absurd hx (List.not_mem_nil x)
  | cons y ys => exact le_foldlMax ys y x hx

theorem lastD_mem {l : List ℚ} (h : l ≠ []) : lastD l ∈ l := by
  cases l with
  | nil => exact absurd rfl h
  | cons x xs =>
    show List.getLastD (x :: xs) 0 ∈ x :: xs
    rw [List.getLastD_cons]
    exact List.getLastD_mem_cons xs x

theorem colMean_pos {l : List ℚ} (hne : l ≠ []) (hpos : ∀ x ∈ l, 0 < x) :
    0 < colMean l := by
  unfold colMean
  apply div_pos (List.sum_pos l hpos hne)
  exact_mod_cast List.length_pos.mpr hne

/-- On a nonempty positive window, the volume/range ratio is defined. -/
theorem ratioWindow_isSome {vals : List ℚ} (hne : vals ≠ [])
    (hpos : ∀ x ∈ vals, 0 < x) : (ratioWindow vals).isSome = true := by
  unfold ratioWindow
  rw [if_neg (ne_of_gt (colMean_pos hne hpos))]
  rfl

/-- On a nonempty positive window, the drawdown is defined. -/
theorem drawdownWindow_isSome {vals : List ℚ} (hne : vals ≠ [])
    (hpos : ∀ x ∈ vals, 0 < x) : (drawdownWindow vals).isSome = true := by
  unfold drawdownWindow
  rw [if_neg (ne_of_gt (hpos _ (listMax_mem hne)))]
  rfl

theorem mem_of_some_mem_map {l : List ℚ} {v : ℚ} (h : some v ∈ l.map some) :
    v ∈ l := by
  rw [List.mem_map] at h
  obtain ⟨y, hy, hye⟩ := h
  injection hye with hye
  exact hye ▸ hy

/-- An all-defined series has the trivial definedness profile `a = 0`. -/
theorem map_some_profile (l : List ℚ) :
    ∀ (i : ℕ) (h : i < (l.map some).length), ((l.map some)[i].isSome ↔ 0 ≤ i) := by
  intro i h
  simp [List.getElem_map]

/-- C6: every defined value of the drawdown statistic on a (positive)
close-price series is at most 0: the current close never exceeds the
rolling maximum, which is positive. -/
theorem C6_drawdown_nonpos (close : List ℚ) (w t : ℕ) (v : ℚ)
    (hpos : ∀ x ∈ close, 0 < x)
    (hv : (calculate_drawdown close w).getD t none = some v) : v ≤ 0 := by
  unfold calculate_drawdown rollingApply at hv
  rw [mapRange_getD] at hv
  by_cases ht : t < (close.map some).length
  case neg => rw [if_neg ht] at hv; simp at hv
  rw [if_pos ht] at hv
  obtain ⟨vals, hrw, hdw⟩ := Option.bind_eq_some.mp hv
  obtain ⟨hlen, hmem⟩ := rollingWindow_some hrw
  unfold drawdownWindow at hdw
  by_cases hm : listMax vals = 0
  · rw [if_pos hm] at hdw; simp at hdw
  · rw [if_neg hm] at hdw
    injection hdw with hdw
    have hvalpos : ∀ x ∈ vals, 0 < x := fun x hx =>
      hpos x (mem_of_some_mem_map (hmem x hx))
    have hne : vals ≠ [] := by
      intro h0
      exact hm (by rw [h0]; rfl)
    have hmx : 0 < listMax vals := hvalpos _ (listMax_mem hne)
    have hlast : lastD vals ≤ listMax vals := le_listMax _ (lastD_mem hne)
    rw [← hdw]
    exact div_nonpos_iff.mpr (Or.inr ⟨by linarith, le_of_lt hmx⟩)

/-- Witness for C6: drawdown of the series `[4, 2]` over a 2-wide window
at index 1 is `-1/2 ≤ 0`. -/
theorem C6_drawdown_nonpos_witness :
    (calculate_drawdown ([4, 2]) 2).getD 1 none = some (-(1/2)) ∧
    (-(1/2) : ℚ) ≤ 0 := by
  have h1 : (calculate_drawdown ([4, 2]) 2).getD 1 none = some (-(1/2)) := by
    show ((List.range 2).map
      (fun t => (rollingWindow ([4, 2].map some) 2 t).bind drawdownWindow)).getD 1 none = _
    rw [mapRange_getD, if_pos (by norm_num)]
    show (rollingWindow ([some 4, some 2]) 2 1).bind drawdownWindow = _
    rw [show rollingWindow ([some 4, some 2]) 2 1 = some ([4, 2]) from rfl]
    show drawdownWindow ([4, 2]) = _
    unfold drawdownWindow
    rw [show listMax ([4, 2]) = (4 : ℚ) from by
      show max 4 2 = (4:ℚ); norm_num]
    rw [if_neg (by norm_num)]
    rw [show lastD ([4, 2]) = (2 : ℚ) from rfl]
    norm_num
  exact ⟨h1, C6_drawdown_nonpos ([4, 2]) 2 1 (-(1/2)) (by norm_num) h1⟩

/-! ## Closed forms for the slope sums -/

theorem sumX_eq (w : ℕ) : sumX w = (w : ℚ) * ((w : ℚ) - 1) / 2 := by
  induction w with
  | zero => simp [sumX]
  | succ n ih =>
    rw [sumX, List.range_succ, List.map_append, List.sum_append]
    have h1 : ((List.range n).map (fun (j : ℕ) => (j : ℚ))).sum = sumX n := rfl
    rw [h1, ih]
    simp only [List.map_cons, List.map_nil, List.sum_cons, List.sum_nil]
    push_cast
    ring

theorem sumXsq_eq (w : ℕ) :
    sumXsq w = (w : ℚ) * ((w : ℚ) - 1) * (2 * (w : ℚ) - 1) / 6 := by
  induction w with
  | zero => simp [sumXsq]
  | succ n ih =>
    rw [sumXsq, List.range_succ, List.map_append, List.sum_append]
    have h1 : ((List.range n).map (fun (j : ℕ) => (j : ℚ) ^ 2)).sum = sumXsq n := rfl
    rw [h1, ih]
    simp only [List.map_cons, List.map_nil, List.sum_cons, List.sum_nil]
    push_cast
    ring

theorem trendDenom_eq (w : ℕ) :
    (w : ℚ) * sumXsq w - sumX w ^ 2 =
      (w : ℚ) ^ 2 * ((w : ℚ) - 1) * ((w : ℚ) + 1) / 12 := by
  rw [sumX_eq, sumXsq_eq]
  ring

theorem trendDenom_pos {w : ℕ} (hw : 2 ≤ w) :
    0 < (w : ℚ) * sumXsq w - sumX w ^ 2 := by
  rw [trendDenom_eq]
  have h2 : (2 : ℚ) ≤ (w : ℚ) := by exact_mod_cast hw
  have h0 : 0 < (w : ℚ) := by linarith
  have h1 : 0 < (w : ℚ) - 1 := by linarith
  have h3 : 0 < (w : ℚ) + 1 := by linarith
  have h4 : 0 < (w : ℚ) ^ 2 := pow_pos h0 2
  have h5 : 0 < (w : ℚ) ^ 2 * ((w : ℚ) - 1) * ((w : ℚ) + 1) :=
    mul_pos (mul_pos h4 h1) h3
  positivity

/-- C7: at every position whose trailing `w`-point window is fully
defined, with `w ≥ 2`, `calculate_trend_slope_fast` returns exactly the
closed-form OLS slope; the denominator `w·Σx² - (Σx)²` equals
`w²(w-1)(w+1)/12`, is strictly positive — so the zero-denominator guard
never fires — and the result is defined. -/
theorem C7_trend_slope_closed_form (y : List (Option ℚ)) (w i : ℕ)
    (hw : 2 ≤ w) (hi : w ≤ i + 1) (hn : i < y.length)
    (hclean : (trendWindow y w i).all Option.isSome = true) :
    ((w : ℚ) * sumXsq w - sumX w ^ 2 =
      (w : ℚ) ^ 2 * ((w : ℚ) - 1) * ((w : ℚ) + 1) / 12) ∧
    (0 < (w : ℚ) * sumXsq w - sumX w ^ 2) ∧
    (calculate_trend_slope_fast y w).getD i none =
      some (((w : ℚ) * sumXY ((trendWindow y w i).map (fun o => o.getD 0)) -
             sumX w * ((trendWindow y w i).map (fun o => o.getD 0)).sum) /
            ((w : ℚ) * sumXsq w - sumX w ^ 2)) := by
  refine ⟨trendDenom_eq w, trendDenom_pos hw, ?_⟩
  unfold calculate_trend_slope_fast
  rw [mapRange_getD, if_pos hn]
  unfold trendSlopeAt
  rw [if_neg (by omega), if_pos hclean, if_pos (ne_of_gt (trendDenom_pos hw))]

/-- Witness for C7 on the fully defined series `[1, 2, 3]`, `w = 2`,
`i = 2`. -/
theorem C7_trend_slope_witness :
    ((2 : ℚ) * sumXsq 2 - sumX 2 ^ 2 =
      (2 : ℚ) ^ 2 * ((2 : ℚ) - 1) * ((2 : ℚ) + 1) / 12) ∧
    (0 < (2 : ℚ) * sumXsq 2 - sumX 2 ^ 2) ∧
    (calculate_trend_slope_fast ([some 1, some 2, some 3]) 2).getD 2 none =
      some (((2 : ℚ) * sumXY ((trendWindow ([some 1, some 2, some 3]) 2 2).map (fun o => o.getD 0)) -
             sumX 2 * ((trendWindow ([some 1, some 2, some 3]) 2 2).map (fun o => o.getD 0)).sum) /
            ((2 : ℚ) * sumXsq 2 - sumX 2 ^ 2)) :=
  C7_trend_slope_closed_form ([some 1, some 2, some 3]) 2 2 (by decide)
    (by decide) (by decide) (by decide)

/-! ## Per-feature definedness -/

theorem getD_eq_getElem {l : List ℚ} {i : ℕ} (h : i < l.length) :
    l.getD i 0 = l[i] := by
  rw [List.getD_eq_getElem?_getD, List.getElem?_eq_getElem h]
  rfl

/-- Volatility over returns from a positive close series: defined exactly
from row `w` on (`1 + w ≤ t + 1`). -/
theorem calculate_volatility_isSome {logQ sq : ℚ → ℚ} {close : List ℚ}
    (hpos : ∀ x ∈ close, 0 < x) {w t : ℕ} (hw : 1 ≤ w) (ht : t < close.length) :
    (((calculate_volatility sq (calculate_log_returns logQ close) w).getD t none).isSome = true) ↔
      1 + w ≤ t + 1 := by
  unfold calculate_volatility
  exact rollingApply_getD_isSome hw (by rwa [calculate_log_returns_length])
    (calculate_log_returns_isSome hpos) (fun vals _ => rfl)

/-- Momentum over returns from a positive close series: defined exactly
from row `w` on. -/
theorem calculate_momentum_isSome {logQ : ℚ → ℚ} {close : List ℚ}
    (hpos : ∀ x ∈ close, 0 < x) {w t : ℕ} (hw : 1 ≤ w) (ht : t < close.length) :
    (((calculate_momentum (calculate_log_returns logQ close) w).getD t none).isSome = true) ↔
      1 + w ≤ t + 1 := by
  unfold calculate_momentum
  exact rollingApply_getD_isSome hw (by rwa [calculate_log_returns_length])
    (calculate_log_returns_isSome hpos) (fun vals _ => rfl)

/-- Volume ratio over a positive volume series: defined exactly from row
`w - 1` on (`w ≤ t + 1`). -/
theorem calculate_volume_ratio_isSome {volume : List ℚ} {w t : ℕ}
    (hw : 1 ≤ w) (ht : t < volume.length) (hpos : ∀ x ∈ volume, 0 < x) :
    (((calculate_volume_ratio volume w).getD t none).isSome = true) ↔
      0 + w ≤ t + 1 := by
  unfold calculate_volume_ratio
  apply rollingApply_getD_isSome hw (by rwa [List.length_map])
    (map_some_profile volume)
  intro vals hrw
  obtain ⟨hlen, hmem⟩ := rollingWindow_some hrw
  apply ratioWindow_isSome
  · intro h0
    rw [h0] at hlen
    simp at hlen
    omega
  · intro x hx
    exact hpos x (mem_of_some_mem_map (hmem x hx))

/-- Drawdown over a positive close series: defined exactly from row
`w - 1` on. -/
theorem calculate_drawdown_isSome {close : List ℚ} {w t : ℕ}
    (hw : 1 ≤ w) (ht : t < close.length) (hpos : ∀ x ∈ close, 0 < x) :
    (((calculate_drawdown close w).getD t none).isSome = true) ↔
      0 + w ≤ t + 1 := by
  unfold calculate_drawdown
  apply rollingApply_getD_isSome hw (by rwa [List.length_map])
    (map_some_profile close)
  intro vals hrw
  obtain ⟨hlen, hmem⟩ := rollingWindow_some hrw
  apply drawdownWindow_isSome
  · intro h0
    rw [h0] at hlen
    simp at hlen
    omega
  · intro x hx
    exact hpos x (mem_of_some_mem_map (hmem x hx))

/-- Each daily range `high - low` is positive when `low < high` row-wise. -/
theorem zipRange_pos {high low : List ℚ} (hlen : low.length = high.length)
    (hrange : ∀ (i : ℕ), i < high.length → low.getD i 0 < high.getD i 0) :
    ∀ x ∈ List.zipWith (fun h l => h - l) high low, 0 < x := by
  intro x hx
  rw [List.mem_iff_getElem] at hx
  obtain ⟨j, hj, hje⟩ := hx
  rw [List.length_zipWith] at hj
  have hj2 : j < high.length := lt_of_lt_of_le hj (min_le_left _ _)
  have hj3 : j < low.length := by omega
  rw [List.getElem_zipWith] at hje
  have h4 := hrange j hj2
  rw [getD_eq_getElem hj3, getD_eq_getElem hj2] at h4
  rw [← hje]
  linarith

/-- Range compression with positive daily ranges: defined exactly from
row `w - 1` on. -/
theorem calculate_range_compression_isSome {high low : List ℚ} {w t : ℕ}
    (hw : 1 ≤ w) (hlen : low.length = high.length)
    (ht : t < (List.zipWith (fun h l => h - l) high low).length)
    (hrange : ∀ (i : ℕ), i < high.length → low.getD i 0 < high.getD i 0) :
    (((calculate_range_compression high low w).getD t none).isSome = true) ↔
      0 + w ≤ t + 1 := by
  unfold calculate_range_compression
  apply rollingApply_getD_isSome hw (by rwa [List.length_map])
    (map_some_profile _)
  intro vals hrw
  obtain ⟨hlen2, hmem⟩ := rollingWindow_some hrw
  apply ratioWindow_isSome
  · intro h0
    rw [h0] at hlen2
    simp at hlen2
    omega
  · intro x hx
    exact zipRange_pos hlen hrange x (mem_of_some_mem_map (hmem x hx))

/-- Trend slope on a fully defined close series, `w ≥ 2`: defined exactly
from row `w - 1` on. -/
theorem calculate_trend_slope_isSome {close : List ℚ} {w t : ℕ}
    (hw : 2 ≤ w) (ht : t < close.length) :
    (((calculate_trend_slope_fast (close.map some) w).getD t none).isSome = true) ↔
      w ≤ t + 1 := by
  unfold calculate_trend_slope_fast
  rw [mapRange_getD, if_pos (by rwa [List.length_map])]
  unfold trendSlopeAt
  by_cases h1 : t + 1 < w
  · rw [if_pos h1]
    simp only [Option.isSome_none, Bool.false_eq_true, false_iff]
    omega
  · rw [if_neg h1]
    have hall : (trendWindow (close.map some) w t).all Option.isSome = true := by
      rw [List.all_eq_true]
      intro o ho
      have h2 : o ∈ close.map some := (List.Sublist.subset
        ((List.take_sublist _ _).trans (List.drop_sublist _ _))) ho
      rw [List.mem_map] at h2
      obtain ⟨y, _, hye⟩ := h2
      rw [← hye]
      rfl
    rw [if_pos hall, if_pos (ne_of_gt (trendDenom_pos hw))]
    simp only [Option.isSome_some, true_iff]
    omega

/-- C4 (amended): on clean input (positive closes and volumes, positive
daily ranges) of `n` rows, each price/volume-based feature with window `w`
(trend slope, drawdown, volume ratio, range compression) is defined
exactly at rows `t ≥ w - 1`, while each return-based feature with window
`w` (volatility, momentum) is defined exactly at rows `t ≥ w`, because
its first input — the log return at row 0 — is itself undefined.  The
original claim's threshold `w - 1` is corrected to `w` for the return-based
features. -/
theorem C4_feature_definedness (logQ sq : ℚ → ℚ)
    (close high low volume : List ℚ) (n : ℕ)
    (hc : close.length = n) (hh : high.length = n) (hl : low.length = n)
    (hv : volume.length = n)
    (hcpos : ∀ x ∈ close, 0 < x) (hvpos : ∀ x ∈ volume, 0 < x)
    (hrange : ∀ (i : ℕ), i < n → low.getD i 0 < high.getD i 0)
    (t : ℕ) (ht : t < n) :
    FeatureDefinednessAt logQ sq close high low volume t := by
  subst hc
  unfold FeatureDefinednessAt extract_features
  have hrange2 : ∀ (i : ℕ), i < high.length → low.getD i 0 < high.getD i 0 := by
    intro i hi
    exact hrange i (by omega)
  have htz : t < (List.zipWith (fun h l => h - l) high low).length := by
    rw [List.length_zipWith]
    omega
  refine ⟨?_, ?_, ?_, ?_, ?_, ?_, ?_, ?_, ?_, ?_, ?_⟩
  · rw [calculate_volatility_isSome hcpos (by norm_num) ht]; omega
  · rw [calculate_volatility_isSome hcpos (by norm_num) ht]; omega
  · rw [calculate_volatility_isSome hcpos (by norm_num) ht]; omega
  · rw [calculate_trend_slope_isSome (by norm_num) ht]; omega
  · rw [calculate_trend_slope_isSome (by norm_num) ht]; omega
  · rw [calculate_drawdown_isSome (by norm_num) ht hcpos]; omega
  · rw [calculate_volume_ratio_isSome (by norm_num) (by omega) hvpos]; omega
  · rw [calculate_volume_ratio_isSome (by norm_num) (by omega) hvpos]; omega
  · rw [calculate_range_compression_isSome (by norm_num) (by omega) htz hrange2]; omega
  · rw [calculate_momentum_isSome hcpos (by norm_num) ht]; omega
  · rw [calculate_momentum_isSome hcpos (by norm_num) ht]; omega

/-- Counterexample to C4 as stated: on the clean 6-row input below,
`volatility_5d` (window 5) is undefined at row index 4 = 5 - 1, whereas
the claim asserts every feature with window `w` is defined at all rows
`≥ w - 1` of clean input. -/
theorem C4_counterexample :
    (∀ x ∈ ([1, 1, 1, 1, 1, 1] : List ℚ), 0 < x) ∧
    (∀ (i : ℕ), i < 6 →
      ([1, 1, 1, 1, 1, 1] : List ℚ).getD i 0 <
        ([2, 2, 2, 2, 2, 2] : List ℚ).getD i 0) ∧
    (extract_features (fun _ => 0) (fun _ => 0)
        ([1, 1, 1, 1, 1, 1]) ([2, 2, 2, 2, 2, 2]) ([1, 1, 1, 1, 1, 1])
        ([1, 1, 1, 1, 1, 1])).volatility_5d.getD 4 none = none := by
  have hpos : ∀ x ∈ ([1, 1, 1, 1, 1, 1] : List ℚ), 0 < x := by
    intro x hx
    simp only [List.mem_cons, List.not_mem_nil, or_false] at hx
    rcases hx with rfl | rfl | rfl | rfl | rfl | rfl <;> norm_num
  refine ⟨hpos, ?_, ?_⟩
  · intro i hi
    interval_cases i <;> norm_num
  · show ((calculate_volatility (fun _ => 0)
      (calculate_log_returns (fun _ => 0) ([1, 1, 1, 1, 1, 1])) 5).getD 4 none) = none
    rw [← Option.not_isSome_iff_eq_none]
    rw [calculate_volatility_isSome hpos (by norm_num) (by norm_num)]
    omega

/-- Witness for the amended C4 at the concrete clean input above, row 5. -/
theorem C4_feature_definedness_witness :
    FeatureDefinednessAt (fun _ => 0) (fun _ => 0)
      ([1, 1, 1, 1, 1, 1]) ([2, 2, 2, 2, 2, 2]) ([1, 1, 1, 1, 1, 1])
      ([1, 1, 1, 1, 1, 1]) 5 := by
  have hpos : ∀ x ∈ ([1, 1, 1, 1, 1, 1] : List ℚ), 0 < x := by
    intro x hx
    simp only [List.mem_cons, List.not_mem_nil, or_false] at hx
    rcases hx with rfl | rfl | rfl | rfl | rfl | rfl <;> norm_num
  exact C4_feature_definedness (fun _ => 0) (fun _ => 0)
    ([1, 1, 1, 1, 1, 1]) ([2, 2, 2, 2, 2, 2]) ([1, 1, 1, 1, 1, 1])
    ([1, 1, 1, 1, 1, 1]) 6 rfl rfl rfl rfl
    hpos hpos (by intro i hi; interval_cases i <;> norm_num) 5 (by norm_num)

/-! ## Scaler lemmas (spec-modelled component, see §4.4) -/

/-- Counterexample to C5 as stated: a one-column matrix whose column
`[1, 1]` has exactly zero variance is accepted by `fit` (the scale is
clamped to 1), it does not fail. -/
theorem C5_counterexample :
    popVar ([1, 1]) = 0 ∧ Scaler.fit ([[1, 1]]) ≠ none := by
  constructor
  · norm_num [popVar, colMean]
  · unfold Scaler.fit
    rw [if_neg (by decide)]
    simp

/-- C5 (amended): scaler fitting fails exactly when the matrix has zero
rows (no columns, or some — equivalently every — column empty); a
zero-variance column does not cause failure, its scale is clamped
to 1. -/
theorem C5_fit_fail_amended (X : List (List ℚ)) :
    Scaler.fit X = none ↔ X = [] ∨ ∃ c ∈ X, c = [] := by
  unfold Scaler.fit
  constructor
  · intro h2
    split at h2
    · rename_i hcond
      rcases hcond with h3 | h3
      · left
        exact List.isEmpty_iff.mp h3
      · right
        rw [List.any_eq_true] at h3
        obtain ⟨c, hc, hce⟩ := h3
        exact ⟨c, hc, List.isEmpty_iff.mp hce⟩
    · exact absurd h2 (by simp)
  · intro h2
    rcases h2 with rfl | ⟨c, hc, rfl⟩
    · simp
    · rw [if_pos (Or.inr (by rw [List.any_eq_true]; exact ⟨[], hc, rfl⟩))]

theorem sum_map_div (l : List ℚ) (f : ℚ → ℚ) (c : ℚ) :
    (l.map (fun x => f x / c)).sum = (l.map f).sum / c := by
  induction l with
  | nil => simp
  | cons a t ih =>
    simp only [List.map_cons, List.sum_cons, ih]
    ring

theorem sum_map_sub_const (l : List ℚ) (m : ℚ) :
    (l.map (fun x => x - m)).sum = l.sum - l.length * m := by
  induction l with
  | nil => simp
  | cons a t ih =>
    simp only [List.map_cons, List.sum_cons, ih, List.length_cons]
    push_cast
    ring

/-- The standardized column has mean zero. -/
theorem transformCol_mean (col : List ℚ) (s : ℚ) (hne : col ≠ []) :
    colMean (Scaler.transformCol (colMean col) s col) = 0 := by
  have hlen : ((col.length : ℚ)) ≠ 0 := by
    have h0 : 0 < col.length := List.length_pos.mpr hne
    exact_mod_cast Nat.pos_iff_ne_zero.mp h0
  show colMean (col.map (fun x => (x - colMean col) / s)) = 0
  rw [show colMean (col.map (fun x => (x - colMean col) / s)) =
    (col.map (fun x => (x - colMean col) / s)).sum /
      ((col.map (fun x => (x - colMean col) / s)).length : ℚ) from rfl]
  rw [List.length_map]
  rw [show (fun x => (x - colMean col) / s) =
    (fun x => (fun y => y - colMean col) x / s) from rfl]
  rw [sum_map_div col (fun y => y - colMean col) s]
  rw [sum_map_sub_const]
  have hA : col.sum - (col.length : ℚ) * colMean col = 0 := by
    show col.sum - (col.length : ℚ) * (col.sum / (col.length : ℚ)) = 0
    field_simp
  rw [hA]
  simp

/-- The standardized column has population variance one (equivalently,
population standard deviation one, since the deviation is the square root
of the variance). -/
theorem transformCol_var (col : List ℚ) (s : ℚ) (hne : col ≠ [])
    (hvar : popVar col ≠ 0) (hssq : s ^ 2 = popVar col) :
    popVar (Scaler.transformCol (colMean col) s col) = 1 := by
  have hmean := transformCol_mean col s hne
  show ((Scaler.transformCol (colMean col) s col).map
      (fun x => (x - colMean (Scaler.transformCol (colMean col) s col)) ^ 2)).sum /
    ((Scaler.transformCol (colMean col) s col).length : ℚ) = 1
  rw [hmean]
  show ((col.map (fun x => (x - colMean col) / s)).map (fun x => (x - 0) ^ 2)).sum /
    (((col.map (fun x => (x - colMean col) / s)).length : ℚ)) = 1
  rw [List.length_map, List.map_map]
  have h1 : ((fun (x : ℚ) => (x - 0) ^ 2) ∘ (fun x => (x - colMean col) / s)) =
      (fun x => ((fun y => (y - colMean col) ^ 2) x) / s ^ 2) := by
    funext x
    simp only [Function.comp_apply, sub_zero]
    rw [div_pow]
  rw [h1, sum_map_div, div_right_comm]
  have h2 : (col.map (fun y => (y - colMean col) ^ 2)).sum / (col.length : ℚ) =
      popVar col := rfl
  rw [h2, hssq]
  exact div_self hvar

/-- C8: `fit` succeeds on a matrix with at least one row (storing each
column's mean and clamped variance), and for every column of nonzero
variance the fitted standardization — dividing centred values by any
scale `s > 0` with `s² = variance`, i.e. the population standard
deviation — yields mean 0 and population variance 1 (hence standard
deviation 1) on the fitting column itself. -/
theorem C8_scaler_roundtrip (X : List (List ℚ)) (col : List ℚ) (s : ℚ)
    (hX : X ≠ []) (hcols : ∀ c ∈ X, c ≠ []) (hcol : col ∈ X)
    (hvar : popVar col ≠ 0) (hs : 0 < s) (hssq : s ^ 2 = popVar col) :
    Scaler.fit X =
      some (X.map (fun c => (colMean c, if popVar c = 0 then 1 else popVar c))) ∧
    colMean (Scaler.transformCol (colMean col) s col) = 0 ∧
    popVar (Scaler.transformCol (colMean col) s col) = 1 := by
  refine ⟨?_, transformCol_mean col s (hcols col hcol),
    transformCol_var col s (hcols col hcol) hvar hssq⟩
  unfold Scaler.fit
  rw [if_neg ?_]
  intro hcond
  rcases hcond with h3 | h3
  · exact hX (List.isEmpty_iff.mp h3)
  · rw [List.any_eq_true] at h3
    obtain ⟨c, hc, hce⟩ := h3
    exact hcols c hc (List.isEmpty_iff.mp hce)

/-- Witness for C8 on the one-column matrix `[[0, 2]]` with scale 1. -/
theorem C8_scaler_roundtrip_witness :
    Scaler.fit ([[0, 2]]) =
      some (([[0, 2]] : List (List ℚ)).map
        (fun c => (colMean c, if popVar c = 0 then 1 else popVar c))) ∧
    colMean (Scaler.transformCol (colMean ([0, 2])) 1 ([0, 2])) = 0 ∧
    popVar (Scaler.transformCol (colMean ([0, 2])) 1 ([0, 2])) = 1 :=
  C8_scaler_roundtrip ([[0, 2]]) ([0, 2]) 1 (by decide) (by decide) (by decide)
    (by norm_num [popVar, colMean]) (by norm_num) (by norm_num [popVar, colMean])

/-! ## Pattern statistics lemmas -/

/-- With pairwise-distinct pattern ids, every dict assignment is a fresh
append, so the stats dict is just the image of the mapping. -/
theorem foldl_statUpsert_eq (F : ℕ × String → ℕ × ℚ) :
    ∀ (mapping : List (ℕ × String)) (acc : List (String × ℕ × ℚ)),
      (∀ p ∈ mapping, ∀ e ∈ acc, e.1 ≠ p.2) →
      (mapping.map Prod.snd).Nodup →
      List.foldl (fun stats p => statUpsert stats p.2 (F p)) acc mapping =
        acc ++ mapping.map (fun p => (p.2, F p)) := by
  intro mapping
  induction mapping with
  | nil => intro acc _ _; simp
  | cons p rest ih =>
    intro acc hfresh hnd
    rw [List.foldl_cons]
    have hup : statUpsert acc p.2 (F p) = acc ++ [(p.2, F p)] := by
      unfold statUpsert
      rw [if_neg ?_]
      intro hany
      rw [List.any_eq_true] at hany
      obtain ⟨e, he, hee⟩ := hany
      exact hfresh p (List.mem_cons_self _ _) e he (by simpa using hee)
    rw [hup]
    rw [ih (acc ++ [(p.2, F p)]) ?_ (List.nodup_cons.mp hnd).2]
    · simp [List.map_cons]
    · intro q hq e he
      rcases List.mem_append.mp he with h2 | h2
      · exact hfresh q (List.mem_cons_of_mem _ hq) e h2
      · have h3 : e = (p.2, F p) := by simpa using h2
        rw [h3]
        intro h4
        have h5 : p.2 = q.2 := h4
        exact (List.nodup_cons.mp hnd).1
          (by rw [h5]; exact List.mem_map_of_mem Prod.snd hq)

/-- The stats dict, with injective pattern values, lists each mapped
pattern's count and rounded percentage in mapping order. -/
theorem calculate_pattern_stats_eq (labels : List ℕ)
    (mapping : List (ℕ × String)) (hnd : (mapping.map Prod.snd).Nodup) :
    calculate_pattern_stats labels mapping =
      mapping.map (fun p => (p.2, labels.countP (fun x => decide (x = p.1)),
        round2 (((labels.countP (fun x => decide (x = p.1))) : ℚ) /
          (labels.length : ℚ) * 100))) := by
  unfold calculate_pattern_stats
  rw [foldl_statUpsert_eq _ mapping []
    (fun p _ e he => absurd he (List.not_mem_nil e)) hnd]
  simp

theorem sum_map_add_nat (m : List (ℕ × String)) (f g : ℕ × String → ℕ) :
    (m.map (fun p => f p + g p)).sum = (m.map f).sum + (m.map g).sum := by
  induction m with
  | nil => simp
  | cons p rest ih =>
    simp only [List.map_cons, List.sum_cons, ih]
    omega

theorem sum_indicator_zero {mapping : List (ℕ × String)} {l : ℕ}
    (hl : l ∉ mapping.map Prod.fst) :
    (mapping.map (fun p => if l = p.1 then 1 else 0)).sum = 0 := by
  induction mapping with
  | nil => simp
  | cons p rest ih =>
    simp only [List.map_cons, List.sum_cons]
    have h1 : l ≠ p.1 := by
      intro h2
      exact hl (by rw [List.map_cons]; exact h2 ▸ List.mem_cons_self _ _)
    rw [if_neg h1, ih (fun h2 => hl (by rw [List.map_cons]; exact List.mem_cons_of_mem _ h2))]

theorem sum_indicator_one {mapping : List (ℕ × String)} {l : ℕ}
    (hnd : (mapping.map Prod.fst).Nodup) (hl : l ∈ mapping.map Prod.fst) :
    (mapping.map (fun p => if l = p.1 then 1 else 0)).sum = 1 := by
  induction mapping with
  | nil => exact absurd hl (List.not_mem_nil l)
  | cons p rest ih =>
    rw [List.map_cons] at hnd hl
    simp only [List.map_cons, List.sum_cons]
    by_cases h1 : l = p.1
    · rw [if_pos h1]
      have h2 : l ∉ rest.map Prod.fst := by
        rw [h1]
        exact (List.nodup_cons.mp hnd).1
      rw [sum_indicator_zero h2]
    · rw [if_neg h1]
      have h3 : l ∈ rest.map Prod.fst := by
        rcases List.mem_cons.mp hl with h4 | h4
        · exact absurd h4 h1
        · exact h4
      rw [ih (List.nodup_cons.mp hnd).2 h3]

/-- When every label's cluster id is mapped and cluster keys are distinct,
the per-cluster counts sum to the number of labelled rows. -/
theorem count_sum_eq {labels : List ℕ} {mapping : List (ℕ × String)}
    (hnd : (mapping.map Prod.fst).Nodup)
    (hcov : ∀ l ∈ labels, l ∈ mapping.map Prod.fst) :
    (mapping.map (fun p => labels.countP (fun x => decide (x = p.1)))).sum =
      labels.length := by
  induction labels with
  | nil =>
    rw [show (mapping.map (fun p => List.countP (fun x => decide (x = p.1)) [])) =
      mapping.map (fun p => 0) from by simp]
    simp
  | cons a ls ih =>
    have h1 : mapping.map (fun p => (a :: ls).countP (fun x => decide (x = p.1))) =
        mapping.map (fun p => ls.countP (fun x => decide (x = p.1)) +
          if a = p.1 then 1 else 0) := by
      simp only [List.countP_cons, decide_eq_true_eq]
    rw [h1, sum_map_add_nat]
    rw [ih (fun l hl => hcov l (List.mem_cons_of_mem _ hl))]
    rw [sum_indicator_one hnd (hcov a (List.mem_cons_self _ _))]
    simp

theorem sum_map_mul_right (m : List (ℕ × String)) (f : ℕ × String → ℚ) (c : ℚ) :
    (m.map (fun p => f p * c)).sum = (m.map f).sum * c := by
  induction m with
  | nil => simp
  | cons p rest ih =>
    simp only [List.map_cons, List.sum_cons, ih]
    ring

theorem sum_map_cast (m : List (ℕ × String)) (f : ℕ × String → ℕ) :
    (m.map (fun p => ((f p : ℕ) : ℚ))).sum = (((m.map f).sum : ℕ) : ℚ) := by
  induction m with
  | nil => simp
  | cons p rest ih =>
    simp only [List.map_cons, List.sum_cons, ih]
    push_cast
    ring

/-- The exact (unrounded) percentages of mapped clusters sum to 100. -/
theorem pct_sum_exact {labels : List ℕ} {mapping : List (ℕ × String)}
    (hnd : (mapping.map Prod.fst).Nodup)
    (hcov : ∀ l ∈ labels, l ∈ mapping.map Prod.fst) (hne : labels ≠ []) :
    (mapping.map (fun p => ((labels.countP (fun x => decide (x = p.1))) : ℚ) /
      (labels.length : ℚ) * 100)).sum = 100 := by
  have hlen : ((labels.length : ℚ)) ≠ 0 := by
    have h0 : 0 < labels.length := List.length_pos.mpr hne
    exact_mod_cast Nat.pos_iff_ne_zero.mp h0
  have h1 : (fun (p : ℕ × String) =>
      ((labels.countP (fun x => decide (x = p.1))) : ℚ) / (labels.length : ℚ) * 100) =
      (fun p => ((labels.countP (fun x => decide (x = p.1))) : ℚ) *
        (100 / (labels.length : ℚ))) := by
    funext p
    ring
  rw [h1, sum_map_mul_right, sum_map_cast, count_sum_eq hnd hcov]
  field_simp

/-- Half-to-even rounding moves a value by at most 1/2. -/
theorem roundHalfEven_err (x : ℚ) : |((roundHalfEven x : ℤ) : ℚ) - x| ≤ 1 / 2 := by
  unfold roundHalfEven
  have hfl : ((⌊x⌋ : ℤ) : ℚ) ≤ x := Int.floor_le x
  have hfu : x < ((⌊x⌋ : ℤ) : ℚ) + 1 := Int.lt_floor_add_one x
  split
  · rename_i h
    rw [abs_le]
    constructor <;> push_cast <;> linarith
  · rename_i h
    push_neg at h
    split
    · rename_i h2
      rw [abs_le]
      constructor <;> push_cast <;> linarith
    · rename_i h2
      push_neg at h2
      split <;> (rw [abs_le]; constructor <;> push_cast <;> linarith)

/-- Rounding to two decimals moves a value by at most 1/200. -/
theorem round2_err (q : ℚ) : |round2 q - q| ≤ 1 / 200 := by
  unfold round2
  have h := roundHalfEven_err (q * 100)
  have h2 : ((roundHalfEven (q * 100) : ℤ) : ℚ) / 100 - q =
      (((roundHalfEven (q * 100) : ℤ) : ℚ) - q * 100) / 100 := by
    ring
  rw [h2, abs_div, abs_of_pos (show (0:ℚ) < 100 by norm_num)]
  have h3 := (div_le_div_right (show (0:ℚ) < 100 by norm_num)).mpr h
  calc |((roundHalfEven (q * 100) : ℤ) : ℚ) - q * 100| / 100
      ≤ (1 / 2) / 100 := h3
    _ = 1 / 200 := by norm_num

/-- Summed rounding error is at most `1/200` per term. -/
theorem sum_round2_err (m : List (ℕ × String)) (f : ℕ × String → ℚ) :
    |(m.map (fun p => round2 (f p))).sum - (m.map f).sum| ≤
      (m.length : ℚ) * (1 / 200) := by
  induction m with
  | nil => simp
  | cons p rest ih =>
    simp only [List.map_cons, List.sum_cons, List.length_cons]
    have h1 := round2_err (f p)
    have h2 : round2 (f p) + (rest.map (fun p => round2 (f p))).sum -
        (f p + (rest.map f).sum) =
        (round2 (f p) - f p) +
          ((rest.map (fun p => round2 (f p))).sum - (rest.map f).sum) := by
      ring
    rw [h2]
    calc |(round2 (f p) - f p) +
          ((rest.map (fun p => round2 (f p))).sum - (rest.map f).sum)|
        ≤ |round2 (f p) - f p| +
            |(rest.map (fun p => round2 (f p))).sum - (rest.map f).sum| :=
          abs_add _ _
      _ ≤ 1 / 200 + (rest.length : ℚ) * (1 / 200) := add_le_add h1 ih
      _ = ((rest.length : ℚ) + 1) * (1 / 200) := by ring
      _ = ((rest.length + 1 : ℕ) : ℚ) * (1 / 200) := by push_cast; ring

/-- C9: `calculate_pattern_stats` gives each mapped pattern a sampleCount
equal to the number of rows carrying its cluster's label and a percentage
equal to that count over the total number of labelled rows times 100,
rounded to two decimals (conjunct 1, using that a PatternAssignment is
injective); when every cluster id occurring in the labels is mapped and
labels exist, the sampleCounts sum to the total number of labelled rows
and the percentages sum to 100 within the rounding tolerance of 1/200 per
mapped pattern (conjunct 2). -/
theorem C9_pattern_stats (labels : List ℕ) (mapping : List (ℕ × String))
    (hk : (mapping.map Prod.fst).Nodup) (hv : (mapping.map Prod.snd).Nodup) :
    (calculate_pattern_stats labels mapping =
      mapping.map (fun p => (p.2, labels.countP (fun x => decide (x = p.1)),
        round2 (((labels.countP (fun x => decide (x = p.1))) : ℚ) /
          (labels.length : ℚ) * 100)))) ∧
    ((∀ l ∈ labels, l ∈ mapping.map Prod.fst) → labels ≠ [] →
      ((calculate_pattern_stats labels mapping).map (fun e => e.2.1)).sum =
          labels.length ∧
        |((calculate_pattern_stats labels mapping).map (fun e => e.2.2)).sum - 100| ≤
          (mapping.length : ℚ) * (1 / 200)) := by
  have heq := calculate_pattern_stats_eq labels mapping hv
  refine ⟨heq, ?_⟩
  intro hcov hne
  constructor
  · rw [heq, List.map_map]
    exact count_sum_eq hk hcov
  · rw [heq, List.map_map]
    have herr := sum_round2_err mapping (fun p =>
      ((labels.countP (fun x => decide (x = p.1))) : ℚ) / (labels.length : ℚ) * 100)
    have hexact := pct_sum_exact hk hcov hne
    show |(mapping.map (fun p => round2 (((labels.countP (fun x => decide (x = p.1))) : ℚ) /
      (labels.length : ℚ) * 100))).sum - 100| ≤ (mapping.length : ℚ) * (1 / 200)
    nth_rewrite 2 [← hexact]
    exact herr

/-- Witness for C9 on labels `[0, 1]` and the mapping
`[(0, P1), (1, P2)]`. -/
theorem C9_pattern_stats_witness :
    (calculate_pattern_stats ([0, 1]) ([(0, "P1"), (1, "P2")]) =
      ([(0, "P1"), (1, "P2")] : List (ℕ × String)).map
        (fun p => (p.2, ([0, 1] : List ℕ).countP (fun x => decide (x = p.1)),
          round2 (((([0, 1] : List ℕ).countP (fun x => decide (x = p.1))) : ℚ) /
            (([0, 1] : List ℕ).length : ℚ) * 100)))) ∧
    ((∀ l ∈ ([0, 1] : List ℕ), l ∈ ([(0, "P1"), (1, "P2")] : List (ℕ × String)).map Prod.fst) →
      ([0, 1] : List ℕ) ≠ [] →
      ((calculate_pattern_stats ([0, 1]) ([(0, "P1"), (1, "P2")])).map
          (fun e => e.2.1)).sum = ([0, 1] : List ℕ).length ∧
        |((calculate_pattern_stats ([0, 1]) ([(0, "P1"), (1, "P2")])).map
            (fun e => e.2.2)).sum - 100| ≤
          (([(0, "P1"), (1, "P2")] : List (ℕ × String)).length : ℚ) * (1 / 200)) :=
  C9_pattern_stats ([0, 1]) ([(0, "P1"), (1, "P2")]) (by decide) (by decide)
